import Mathlib

/-!
# Log streaming controller (server/controllers/logstreaming_controller.go)

A shallow embedding of the in-memory log broadcast store of
`LogStreamingController` and of the identity key `PullInfo.String`.

Modelling conventions.

* A Go `map[K]V` is a function `K → Option V` (`none`: key absent); a map
  variable that may be `nil` is an `Option` of such a function.
* The inner registry `map[chan string]bool` only ever stores `true` and is
  only ever ranged over and deleted from, so it is kept as its finite key set.
* A `chan string` is a reference: a natural number naming a cell of the
  channel heap `chans`, which holds the buffered lines (oldest first).
  `make` hands out the next unused number, `nextChan`.
* Every store operation holds `chanLock` for its whole body, so each one is an
  atomic state transition.  A blocking send that can never complete is the
  result `none`.
* A session's receive is a step of its own.  A receive that falls inside the
  fan-out loop of `writeLogLine` touches one channel only and so acts like a
  receive just before or just after the whole call.
* `PullInfo.String` is modelled on strings as lists of characters; the verb
  `%s` copies its argument and `'/'` is a single byte, so the cut at a `'/'`
  is the same on Go's byte strings.
-/

namespace LogStreaming

/-- The capacity given to `make(chan string, 1000)` in `addChan`. -/
def chanCap : Nat := 1000

/-- The mutable fields of `LogStreamingController` together with the heap of
channels created so far. -/
structure LogStreamingController where
  logBuffers : Option (String → Option (List String))
  wsChans : Option (String → Option (Finset Nat))
  chans : Nat → List String
  nextChan : Nat

/-- The zero value of the controller: both maps are `nil`, no channel exists. -/
def zeroValue : LogStreamingController :=
  ⟨none, none, fun _ => [], 0⟩

/-- The Go expression `j.logBuffers[pull]`: a missing key (or a nil map) reads
as the nil slice, which has no elements. -/
def bufferOf (j : LogStreamingController) (pull : String) : List String :=
  match j.logBuffers with
  | none => []
  | some m => (m pull).getD []

/-- The key set of the Go expression `j.wsChans[pull]`: a missing key (or a nil
map) reads as the nil map, which has no keys. -/
def chansOf (j : LogStreamingController) (pull : String) : Finset Nat :=
  match j.wsChans with
  | none => ∅
  | some m => (m pull).getD ∅

/-- The send `ch <- line` on a channel of capacity `chanCap` whose buffer holds
`b`: it can proceed exactly when the buffer has room (a receiver can only be
waiting on an empty buffer, which has room). -/
def send (b : List String) (line : String) : Option (List String) :=
  if b.length < chanCap then some (b ++ [line]) else none

/-- The loop `for _, line := range lines { ch <- line }` on a channel nobody
else holds yet: a send that finds the buffer full blocks forever. -/
def sendAll : List String → List String → Option (List String)
  | b, [] => some b
  | b, line :: rest =>
    match send b line with
    | none => none
    | some b' => sendAll b' rest

/-- The statement `delete(j.wsChans[pull], ch)`: a no-op on a nil outer map and
on a missing inner map. -/
def deleteChan (ws : Option (String → Option (Finset Nat))) (pull : String) (ch : Nat) :
    Option (String → Option (Finset Nat)) :=
  match ws with
  | none => none
  | some m =>
    match m pull with
    | none => some m
    | some r => some (Function.update m pull (some (r.erase ch)))

/-- The keys produced by `range` over a registry. Go leaves the order
unspecified; the ascending order is used here (see `fanOut_perm`). -/
def rangeKeys (r : Finset Nat) : List Nat :=
  r.sort (· ≤ ·)

/-- Source: `addChan`. The result is `none` when the replay loop blocks. -/
def addChan (j : LogStreamingController) (pull : String) : Option (Nat × LogStreamingController) :=
  let ch := j.nextChan
  match sendAll [] (bufferOf j pull) with
  | none => none
  | some b =>
    let ws := j.wsChans.getD (fun _ => none)
    let inner := (ws pull).getD ∅
    some (ch, { j with
      wsChans := some (Function.update ws pull (some (insert ch inner)))
      chans := Function.update j.chans ch b
      nextChan := ch + 1 })

/-- Source: `removeChan`. -/
def removeChan (j : LogStreamingController) (pull : String) (ch : Nat) : LogStreamingController :=
  { j with wsChans := deleteChan j.wsChans pull ch }

/-- The body of the `select` in `writeLogLine` for one registered channel:
enqueue when the send can proceed, otherwise take the `default` branch and
delete the channel from the registry. -/
def fanOutStep (pull line : String) (j : LogStreamingController) (ch : Nat) :
    LogStreamingController :=
  match send (j.chans ch) line with
  | some b => { j with chans := Function.update j.chans ch b }
  | none => { j with wsChans := deleteChan j.wsChans pull ch }

/-- The loop `for ch, _ := range j.wsChans[pull]` of `writeLogLine` over a
given key order. -/
def fanOut (pull line : String) (j : LogStreamingController) (keys : List Nat) :
    LogStreamingController :=
  keys.foldl (fanOutStep pull line) j

/-- Source: `writeLogLine`. -/
def writeLogLine (j : LogStreamingController) (pull line : String) : LogStreamingController :=
  let j0 := { j with logBuffers := some (j.logBuffers.getD (fun _ => none)) }
  let j1 := fanOut pull line j0 (rangeKeys (chansOf j0 pull))
  let m := j1.logBuffers.getD (fun _ => none)
  { j1 with logBuffers := some (Function.update m pull (some ((m pull).getD [] ++ [line]))) }

/-- Source: `clearLogLines`. `delete` on a nil map is a no-op. -/
def clearLogLines (j : LogStreamingController) (pull : String) : LogStreamingController :=
  { j with logBuffers := j.logBuffers.map (fun m => Function.update m pull none) }

/-- Modelled from the spec: the type `models.TerraformOutputLine` is declared
outside the given sources; the fields are the ones `Listen` reads, the log
event of the data model (identity, line, reset-before, reset-after). -/
structure TerraformOutputLine where
  PullInfo : String
  Line : String
  ClearBuffBefore : Bool
  ClearBuffAfter : Bool

/-- Source: `Listen`, over the messages delivered by `TerraformOutputChan`. -/
def Listen (j : LogStreamingController) : List TerraformOutputLine → LogStreamingController
  | [] => j
  | msg :: rest =>
    let j1 := if msg.ClearBuffBefore then clearLogLines j msg.PullInfo else j
    let j2 := writeLogLine j1 msg.PullInfo msg.Line
    let j3 := if msg.ClearBuffAfter then clearLogLines j2 msg.PullInfo else j2
    Listen j3 rest

/-- The receive `msg := <-ch` of the session loop in `GetLogStreamWS`: it takes
the oldest buffered line, and cannot proceed (`none`) on an empty buffer. -/
def recv (j : LogStreamingController) (ch : Nat) : Option (String × LogStreamingController) :=
  match j.chans ch with
  | [] => none
  | x :: rest => some (x, { j with chans := Function.update j.chans ch rest })

/-- The calls that the sessions and the dispatcher make on the store. -/
inductive Op where
  | addChan (pull : String)
  | removeChan (pull : String) (ch : Nat)
  | writeLogLine (pull line : String)
  | clearLogLines (pull : String)
  | recv (ch : Nat)
  deriving DecidableEq

/-- One completed call; `none` when the call cannot complete. -/
def step (j : LogStreamingController) : Op → Option LogStreamingController
  | .addChan pull => (addChan j pull).map Prod.snd
  | .removeChan pull ch => some (removeChan j pull ch)
  | .writeLogLine pull line => some (writeLogLine j pull line)
  | .clearLogLines pull => some (clearLogLines j pull)
  | .recv ch => (recv j ch).map Prod.snd

/-- A sequence of completed calls. -/
def run (j : LogStreamingController) : List Op → Option LogStreamingController
  | [] => some j
  | op :: rest =>
    match step j op with
    | none => none
    | some j' => run j' rest

/-- The line a call hands to the session reading channel `q`: the value of a
receive on `q`, nothing for any other call. -/
def taken (q : Nat) (j : LogStreamingController) : Op → List String
  | .recv ch => if ch = q then ((recv j ch).map Prod.fst).toList else []
  | _ => []

/-- The lines a session obtains from channel `q` along a sequence of calls. -/
def received (q : Nat) (j : LogStreamingController) : List Op → List String
  | [] => []
  | op :: rest =>
    match step j op with
    | none => []
    | some j' => taken q j op ++ received q j' rest

/-- The calls `writeLogLine(pull, l)` for each `l` of `lines`, in order. -/
def afterWrites (j : LogStreamingController) (pull : String) (lines : List String) :
    LogStreamingController :=
  lines.foldl (fun s l => writeLogLine s pull l) j

/-- The lines passed to `writeLogLine(pull, ·)` in a sequence of calls. -/
def writesOn (pull : String) : List Op → List String
  | [] => []
  | .writeLogLine p line :: rest =>
    if p = pull then line :: writesOn pull rest else writesOn pull rest
  | _ :: rest => writesOn pull rest

/-- The lines passed to `writeLogLine(pull, ·)` since the last
`clearLogLines(pull)`, given the lines `acc` collected before the calls. -/
def linesSinceReset (pull : String) (acc : List String) : List Op → List String
  | [] => acc
  | .writeLogLine p line :: rest =>
    linesSinceReset pull (if p = pull then acc ++ [line] else acc) rest
  | .clearLogLines p :: rest =>
    linesSinceReset pull (if p = pull then [] else acc) rest
  | _ :: rest => linesSinceReset pull acc rest

/-- The calls made after the last `clearLogLines(pull)` (all of them when
there is none). -/
def sinceLastReset (pull : String) : List Op → List Op
  | [] => []
  | op :: rest =>
    if Op.clearLogLines pull ∈ rest then sinceLastReset pull rest
    else if op = Op.clearLogLines pull then rest
    else op :: rest

/-- The lines enqueued on channel `q` between the store `j0` and the store
`jEnd` reached from it by `ops`: what the session has received on the way and
what is still buffered, less what `q` already held at `j0`. -/
def enqueuedSince (q : Nat) (j0 : LogStreamingController) (ops : List Op)
    (jEnd : LogStreamingController) : List String :=
  (received q j0 ops ++ jEnd.chans q).drop (j0.chans q).length

/-- The identity the call is made on (none for a receive). -/
def Op.pull? : Op → Option String
  | .addChan p => some p
  | .removeChan p _ => some p
  | .writeLogLine p _ => some p
  | .clearLogLines p => some p
  | .recv _ => none

/-- Every registered channel has been created by `make`. -/
def WellFormed (j : LogStreamingController) : Prop :=
  ∀ pull ch, ch ∈ chansOf j pull → ch < j.nextChan

/-- No channel is registered under two identities. -/
def Unshared (j : LogStreamingController) : Prop :=
  ∀ ch K K', ch ∈ chansOf j K → ch ∈ chansOf j K' → K = K'

/-- Channel `q` exists and no identity other than `K` has it registered. -/
structure Tracks (j : LogStreamingController) (K : String) (q : Nat) : Prop where
  wf : WellFormed j
  made : q < j.nextChan
  only : ∀ K', q ∈ chansOf j K' → K' = K

/-- Source type `PullInfo`. -/
structure PullInfo where
  Org : String
  Repo : String
  Pull : Int
  ProjectName : String

/-- The decimal digit character of `d < 10`. -/
def digitChar (d : Nat) : Char :=
  Char.ofNat (48 + d)

/-- Decimal digits of `u`, most significant first, in front of `acc`. -/
def decDigits : Nat → Nat → List Char → List Char
  | 0, u, acc => digitChar (u % 10) :: acc
  | fuel + 1, u, acc =>
    if 10 ≤ u then decDigits fuel (u / 10) (digitChar (u % 10) :: acc)
    else digitChar u :: acc

/-- The verb `%d` applied to an `int`. -/
def formatInt (i : Int) : List Char :=
  if i < 0 then '-' :: decDigits i.natAbs i.natAbs [] else decDigits i.natAbs i.natAbs []

/-- Source: `PullInfo.String`, `fmt.Sprintf("%s/%s/%d/%s", ...)`. -/
def PullInfo.String (p : PullInfo) : String :=
  p.Org ++ "/" ++ p.Repo ++ "/" ++ String.mk (formatInt p.Pull) ++ "/" ++ p.ProjectName

/-- The value of a digit character. -/
def digitVal (c : Char) : Nat :=
  c.toNat - 48

/-- Reads a run of decimal digits back. -/
def readDigits (cs : List Char) : Nat :=
  cs.foldl (fun n c => 10 * n + digitVal c) 0

/-! ## Concrete stores used in the examples -/

/-- The store after `n` calls `writeLogLine("k", "l")` on the zero value. -/
def storeWithHistory (n : Nat) : LogStreamingController :=
  afterWrites zeroValue "k" (List.replicate n "l")

/-- The zero-value store after one `addChan("k")`: channel 0, empty, is the
only registered channel. -/
def oneSubscriber : LogStreamingController :=
  ⟨none, some (Function.update (fun _ => none) "k" (some (insert 0 ∅))),
    Function.update (fun _ => []) 0 [], 1⟩

/-- The store `oneSubscriber` after a second `addChan("k")`: channels 0 and 1,
both empty, are registered. -/
def twoSubscribers : LogStreamingController :=
  ⟨none,
    some (Function.update (Function.update (fun _ => none) "k" (some (insert 0 ∅))) "k"
      (some (insert 1 (insert 0 ∅)))),
    Function.update (Function.update (fun _ => []) 0 []) 1 [], 2⟩

/-! ## Effect of each operation on the observable parts of the state -/

theorem sendAll_eq (lines b : List String) (hb : b.length ≤ chanCap) :
    sendAll b lines =
      if b.length + lines.length ≤ chanCap then some (b ++ lines) else none := by
  induction lines generalizing b with
  | nil => simp [sendAll, hb]
  | cons l rest ih =>
    unfold sendAll send
    by_cases h : b.length < chanCap
    · have hb2 : (b ++ [l]).length ≤ chanCap := by simp; omega
      simp only [h, if_true, ih _ hb2]
      have e : (b ++ [l]).length + rest.length = b.length + (l :: rest).length := by
        simp; omega
      rw [e]
      simp
    · have h2 : ¬ (b.length + (rest.length + 1) ≤ chanCap) := by omega
      simp [h, h2]

theorem chansOf_deleteChan (j : LogStreamingController) (pull : String) (ch : Nat)
    (K : String) :
    chansOf { j with wsChans := deleteChan j.wsChans pull ch } K =
      if K = pull then (chansOf j pull).erase ch else chansOf j K := by
  unfold chansOf deleteChan
  cases hw : j.wsChans with
  | none => simp
  | some m =>
    cases hm : m pull with
    | none =>
      by_cases hK : K = pull
      · subst hK; simp [hm]
      · simp [hK, hm]
    | some r =>
      by_cases hK : K = pull
      · subst hK; simp [hm]
      · simp [hK, hm, Function.update_noteq hK]

theorem deleteChan_of_not_mem (j : LogStreamingController) (pull : String) (ch : Nat)
    (h : ch ∉ chansOf j pull) : deleteChan j.wsChans pull ch = j.wsChans := by
  unfold chansOf at h
  unfold deleteChan
  cases hw : j.wsChans with
  | none => rfl
  | some m =>
    rw [hw] at h
    cases hm : m pull with
    | none => simp [hm]
    | some r =>
      simp only [hm, Option.getD_some] at h
      simp only [hm, Finset.erase_eq_of_not_mem h]
      rw [← hm, Function.update_eq_self]

theorem addChan_eq (j : LogStreamingController) (pull : String) :
    addChan j pull =
      if (bufferOf j pull).length ≤ chanCap then
        some (j.nextChan, { j with
          wsChans := some (Function.update (j.wsChans.getD (fun _ => none)) pull
            (some (insert j.nextChan (chansOf j pull))))
          chans := Function.update j.chans j.nextChan (bufferOf j pull)
          nextChan := j.nextChan + 1 })
      else none := by
  unfold addChan
  rw [sendAll_eq _ _ (by simp)]
  by_cases h : (bufferOf j pull).length ≤ chanCap
  · simp only [List.length_nil, Nat.zero_add, h, if_true, List.nil_append]
    congr 3
    unfold chansOf
    cases j.wsChans <;> simp
  · simp [h]

/-- What a completed `addChan` did, stated on the observable parts. -/
theorem addChan_spec {j j' : LogStreamingController} {pull : String} {q : Nat}
    (h : addChan j pull = some (q, j')) :
    q = j.nextChan ∧ (bufferOf j pull).length ≤ chanCap ∧
    j'.nextChan = j.nextChan + 1 ∧
    j'.logBuffers = j.logBuffers ∧
    j'.chans = Function.update j.chans q (bufferOf j pull) ∧
    (∀ K, chansOf j' K = if K = pull then insert q (chansOf j pull) else chansOf j K) := by
  rw [addChan_eq] at h
  by_cases hl : (bufferOf j pull).length ≤ chanCap
  · simp only [hl, if_true, Option.some.injEq, Prod.mk.injEq] at h
    obtain ⟨hq, hj⟩ := h
    subst hj
    subst hq
    refine ⟨rfl, hl, rfl, rfl, rfl, ?_⟩
    intro K
    by_cases hK : K = pull
    · subst hK; simp [chansOf]
    · simp only [chansOf, hK, if_false, Function.update_noteq hK]
      cases j.wsChans <;> simp
  · simp [hl] at h

theorem bufferOf_congr {j j' : LogStreamingController} (h : j'.logBuffers = j.logBuffers)
    (K : String) : bufferOf j' K = bufferOf j K := by
  unfold bufferOf; rw [h]

theorem chansOf_congr {j j' : LogStreamingController} (h : j'.wsChans = j.wsChans)
    (K : String) : chansOf j' K = chansOf j K := by
  unfold chansOf; rw [h]

theorem chansOf_removeChan (j : LogStreamingController) (pull : String) (ch : Nat)
    (K : String) :
    chansOf (removeChan j pull ch) K =
      if K = pull then (chansOf j pull).erase ch else chansOf j K :=
  chansOf_deleteChan j pull ch K

theorem bufferOf_clearLogLines (j : LogStreamingController) (pull K : String) :
    bufferOf (clearLogLines j pull) K = if K = pull then [] else bufferOf j K := by
  unfold bufferOf clearLogLines
  cases j.logBuffers with
  | none => simp
  | some m =>
    by_cases hK : K = pull
    · subst hK; simp
    · simp [hK, Function.update_noteq hK]

theorem fanOut_logBuffers (pull line : String) (keys : List Nat) (j : LogStreamingController) :
    (fanOut pull line j keys).logBuffers = j.logBuffers := by
  induction keys generalizing j with
  | nil => rfl
  | cons a t ih =>
    simp only [fanOut, List.foldl_cons] at ih ⊢
    rw [ih]
    unfold fanOutStep
    split <;> rfl

theorem fanOut_nextChan (pull line : String) (keys : List Nat) (j : LogStreamingController) :
    (fanOut pull line j keys).nextChan = j.nextChan := by
  induction keys generalizing j with
  | nil => rfl
  | cons a t ih =>
    simp only [fanOut, List.foldl_cons] at ih ⊢
    rw [ih]
    unfold fanOutStep
    split <;> rfl

theorem fanOutStep_chans (pull line : String) (j : LogStreamingController) (a c : Nat) :
    (fanOutStep pull line j a).chans c =
      if c = a ∧ (j.chans c).length < chanCap then j.chans c ++ [line] else j.chans c := by
  unfold fanOutStep send
  by_cases hc : c = a
  · subst hc
    by_cases hl : (j.chans c).length < chanCap <;> simp [hl]
  · by_cases hl : (j.chans a).length < chanCap <;> simp [hl, hc, Function.update_noteq hc]

theorem chansOf_fanOutStep (pull line : String) (j : LogStreamingController) (a : Nat)
    (K : String) :
    chansOf (fanOutStep pull line j a) K =
      if K = pull ∧ chanCap ≤ (j.chans a).length then (chansOf j pull).erase a
      else chansOf j K := by
  unfold fanOutStep send
  by_cases hl : (j.chans a).length < chanCap
  · have hl2 : ¬ chanCap ≤ (j.chans a).length := by omega
    simp only [hl, if_true, hl2, and_false, if_false]
    rfl
  · have hl2 : chanCap ≤ (j.chans a).length := by omega
    simp only [hl, if_false, hl2, and_true]
    exact chansOf_deleteChan j pull a K

theorem fanOut_chans (pull line : String) (keys : List Nat) (hnd : keys.Nodup)
    (j : LogStreamingController) (c : Nat) :
    (fanOut pull line j keys).chans c =
      if c ∈ keys ∧ (j.chans c).length < chanCap then j.chans c ++ [line] else j.chans c := by
  induction keys generalizing j with
  | nil => simp [fanOut]
  | cons a t ih =>
    rw [List.nodup_cons] at hnd
    simp only [fanOut, List.foldl_cons] at ih ⊢
    rw [ih hnd.2, fanOutStep_chans]
    by_cases hc : c = a
    · subst hc
      simp [hnd.1]
    · simp [hc]

theorem chansOf_fanOut (pull line : String) (keys : List Nat) (hnd : keys.Nodup)
    (j : LogStreamingController) (K : String) :
    chansOf (fanOut pull line j keys) K =
      if K = pull then
        (chansOf j pull).filter (fun c => ¬ (c ∈ keys ∧ chanCap ≤ (j.chans c).length))
      else chansOf j K := by
  induction keys generalizing j with
  | nil => by_cases hK : K = pull <;> simp [fanOut, hK]
  | cons a t ih =>
    rw [List.nodup_cons] at hnd
    simp only [fanOut, List.foldl_cons] at ih ⊢
    rw [ih hnd.2]
    by_cases hK : K = pull
    · subst hK
      simp only [if_true, chansOf_fanOutStep, true_and]
      ext c
      simp only [Finset.mem_filter, fanOutStep_chans, List.mem_cons]
      by_cases hc : c = a
      · subst hc
        by_cases hl : chanCap ≤ (j.chans c).length
        · simp [hl]
        · simp [hl, hnd.1]
      · by_cases hl : chanCap ≤ (j.chans a).length
        · simp [hl, hc, Finset.mem_erase]
        · simp [hl, hc]
    · simp [hK, chansOf_fanOutStep]

/-- The result of the fan-out loop does not depend on the order in which
`range` produces the registered channels. -/
theorem fanOut_perm (pull line : String) (j : LogStreamingController) (l₁ l₂ : List Nat)
    (h₁ : l₁.Nodup) (hp : l₁.Perm l₂) :
    (fanOut pull line j l₁).chans = (fanOut pull line j l₂).chans ∧
    (∀ K, chansOf (fanOut pull line j l₁) K = chansOf (fanOut pull line j l₂) K) ∧
    (fanOut pull line j l₁).logBuffers = (fanOut pull line j l₂).logBuffers ∧
    (fanOut pull line j l₁).nextChan = (fanOut pull line j l₂).nextChan := by
  have h₂ : l₂.Nodup := hp.nodup_iff.mp h₁
  refine ⟨?_, ?_, ?_, ?_⟩
  · funext c
    rw [fanOut_chans _ _ _ h₁, fanOut_chans _ _ _ h₂]
    simp only [hp.mem_iff]
  · intro K
    rw [chansOf_fanOut _ _ _ h₁, chansOf_fanOut _ _ _ h₂]
    simp only [hp.mem_iff]
  · rw [fanOut_logBuffers, fanOut_logBuffers]
  · rw [fanOut_nextChan, fanOut_nextChan]

theorem rangeKeys_nodup (r : Finset Nat) : (rangeKeys r).Nodup :=
  Finset.sort_nodup _ _

theorem mem_rangeKeys (r : Finset Nat) (c : Nat) : c ∈ rangeKeys r ↔ c ∈ r :=
  Finset.mem_sort _

theorem writeLogLine_nextChan (j : LogStreamingController) (pull line : String) :
    (writeLogLine j pull line).nextChan = j.nextChan := by
  simp only [writeLogLine, fanOut_nextChan]

theorem writeLogLine_chans (j : LogStreamingController) (pull line : String) (c : Nat) :
    (writeLogLine j pull line).chans c =
      if c ∈ chansOf j pull ∧ (j.chans c).length < chanCap then j.chans c ++ [line]
      else j.chans c := by
  simp only [writeLogLine]
  rw [fanOut_chans _ _ _ (rangeKeys_nodup _)]
  simp only [mem_rangeKeys]
  rfl

theorem chansOf_writeLogLine (j : LogStreamingController) (pull line K : String) :
    chansOf (writeLogLine j pull line) K =
      if K = pull then (chansOf j pull).filter (fun c => (j.chans c).length < chanCap)
      else chansOf j K := by
  have e : ∀ j' : LogStreamingController, ∀ lb,
      chansOf { j' with logBuffers := lb } K = chansOf j' K := fun _ _ => rfl
  simp only [writeLogLine]
  rw [e, chansOf_fanOut _ _ _ (rangeKeys_nodup _)]
  have e2 : ∀ K', chansOf { j with logBuffers := some (j.logBuffers.getD (fun _ => none)) } K'
      = chansOf j K' := fun _ => rfl
  simp only [e2]
  by_cases hK : K = pull
  · simp only [hK, if_true, mem_rangeKeys]
    ext c
    simp only [Finset.mem_filter]
    constructor
    · rintro ⟨h1, h2⟩
      refine ⟨h1, ?_⟩
      by_contra h3
      exact h2 ⟨h1, by omega⟩
    · rintro ⟨h1, h2⟩
      refine ⟨h1, ?_⟩
      rintro ⟨_, h3⟩
      omega
  · simp [hK]

theorem bufferOf_writeLogLine (j : LogStreamingController) (pull line K : String) :
    bufferOf (writeLogLine j pull line) K =
      if K = pull then bufferOf j pull ++ [line] else bufferOf j K := by
  simp only [writeLogLine, bufferOf, fanOut_logBuffers]
  cases j.logBuffers with
  | none =>
    by_cases hK : K = pull
    · subst hK; simp
    · simp [hK, Function.update_noteq hK]
  | some m =>
    by_cases hK : K = pull
    · subst hK; simp
    · simp [hK, Function.update_noteq hK]

theorem recv_spec {j j' : LogStreamingController} {ch : Nat} {x : String}
    (h : recv j ch = some (x, j')) :
    j.chans ch = x :: j'.chans ch ∧ (∀ c, c ≠ ch → j'.chans c = j.chans c) ∧
    j'.logBuffers = j.logBuffers ∧ j'.wsChans = j.wsChans ∧ j'.nextChan = j.nextChan := by
  unfold recv at h
  cases hc : j.chans ch with
  | nil => simp [hc] at h
  | cons y rest =>
    simp only [hc, Option.some.injEq, Prod.mk.injEq] at h
    obtain ⟨hx, hj⟩ := h
    subst hj
    subst hx
    refine ⟨by simp, ?_, rfl, rfl, rfl⟩
    intro c hne
    simp [Function.update_noteq hne]

/-! ## One call: allocation, registration and channel contents -/

theorem step_nextChan {j j' : LogStreamingController} {op : Op} (h : step j op = some j') :
    j.nextChan ≤ j'.nextChan := by
  cases op with
  | addChan K =>
    simp only [step, Option.map_eq_some', Prod.exists, exists_eq_right] at h
    obtain ⟨q, h⟩ := h
    have := (addChan_spec h).2.2.1
    omega
  | removeChan K c =>
    simp only [step, Option.some.injEq] at h
    subst h; exact Nat.le_refl _
  | writeLogLine K l =>
    simp only [step, Option.some.injEq] at h
    subst h; rw [writeLogLine_nextChan]
  | clearLogLines K =>
    simp only [step, Option.some.injEq] at h
    subst h; exact Nat.le_refl _
  | recv c =>
    simp only [step, Option.map_eq_some', Prod.exists, exists_eq_right] at h
    obtain ⟨x, h⟩ := h
    rw [(recv_spec h).2.2.2.2]

/-- A call registers no channel that already existed before it. -/
theorem step_mem {j j' : LogStreamingController} {op : Op} (h : step j op = some j')
    {q : Nat} (hq : q < j.nextChan) {K : String} (hm : q ∈ chansOf j' K) :
    q ∈ chansOf j K := by
  cases op with
  | addChan K' =>
    simp only [step, Option.map_eq_some', Prod.exists, exists_eq_right] at h
    obtain ⟨q', h⟩ := h
    obtain ⟨hq', -, -, -, -, hc⟩ := addChan_spec h
    rw [hc] at hm
    by_cases hK : K = K'
    · simp only [hK, if_true, Finset.mem_insert] at hm
      rcases hm with hm | hm
      · omega
      · rw [hK]; exact hm
    · simpa [hK] using hm
  | removeChan K' c =>
    simp only [step, Option.some.injEq] at h
    subst h
    rw [chansOf_removeChan] at hm
    by_cases hK : K = K'
    · simp only [hK, if_true] at hm
      rw [hK]; exact Finset.mem_of_mem_erase hm
    · simpa [hK] using hm
  | writeLogLine K' l =>
    simp only [step, Option.some.injEq] at h
    subst h
    rw [chansOf_writeLogLine] at hm
    by_cases hK : K = K'
    · simp only [hK, if_true] at hm
      rw [hK]; exact Finset.mem_of_mem_filter _ hm
    · simpa [hK] using hm
  | clearLogLines K' =>
    simp only [step, Option.some.injEq] at h
    subst h
    exact hm
  | recv c =>
    simp only [step, Option.map_eq_some', Prod.exists, exists_eq_right] at h
    obtain ⟨x, h⟩ := h
    rw [chansOf_congr (recv_spec h).2.2.2.1] at hm
    exact hm

/-- A call registers at most the channel it has just created. -/
theorem step_mem_lt {j j' : LogStreamingController} {op : Op} (h : step j op = some j')
    {q : Nat} {K : String} (hm : q ∈ chansOf j' K) :
    q ∈ chansOf j K ∨ (q = j.nextChan ∧ op = Op.addChan K) := by
  cases op with
  | addChan K' =>
    simp only [step, Option.map_eq_some', Prod.exists, exists_eq_right] at h
    obtain ⟨q', h⟩ := h
    obtain ⟨hq', -, -, -, -, hc⟩ := addChan_spec h
    rw [hc] at hm
    by_cases hK : K = K'
    · simp only [hK, if_true, Finset.mem_insert] at hm
      rcases hm with hm | hm
      · right; exact ⟨by omega, by rw [hK]⟩
      · left; rw [hK]; exact hm
    · left; simpa [hK] using hm
  | removeChan K' c =>
    left
    by_cases hq : q < j.nextChan
    · exact step_mem h hq hm
    · simp only [step, Option.some.injEq] at h
      subst h
      rw [chansOf_removeChan] at hm
      by_cases hK : K = K'
      · simp only [hK, if_true] at hm
        rw [hK]; exact Finset.mem_of_mem_erase hm
      · simpa [hK] using hm
  | writeLogLine K' l =>
    left
    simp only [step, Option.some.injEq] at h
    subst h
    rw [chansOf_writeLogLine] at hm
    by_cases hK : K = K'
    · simp only [hK, if_true] at hm
      rw [hK]; exact Finset.mem_of_mem_filter _ hm
    · simpa [hK] using hm
  | clearLogLines K' =>
    left
    simp only [step, Option.some.injEq] at h
    subst h
    exact hm
  | recv c =>
    left
    simp only [step, Option.map_eq_some', Prod.exists, exists_eq_right] at h
    obtain ⟨x, h⟩ := h
    rw [chansOf_congr (recv_spec h).2.2.2.1] at hm
    exact hm

theorem wellFormed_zeroValue : WellFormed zeroValue := by
  intro K c h
  simp [chansOf, zeroValue] at h

theorem wellFormed_step {j j' : LogStreamingController} {op : Op} (h : step j op = some j')
    (hwf : WellFormed j) : WellFormed j' := by
  intro K c hm
  have hle := step_nextChan h
  rcases step_mem_lt h hm with h1 | ⟨h1, h2⟩
  · have := hwf K c h1
    omega
  · subst h2
    simp only [step, Option.map_eq_some', Prod.exists, exists_eq_right] at h
    obtain ⟨q', h⟩ := h
    have := (addChan_spec h).2.2.1
    omega

theorem wellFormed_run {ops : List Op} {j j' : LogStreamingController}
    (h : run j ops = some j') (hwf : WellFormed j) : WellFormed j' := by
  induction ops generalizing j with
  | nil =>
    simp only [run, Option.some.injEq] at h
    subst h; exact hwf
  | cons op rest ih =>
    simp only [run] at h
    cases hs : step j op with
    | none => simp [hs] at h
    | some j1 =>
      rw [hs] at h
      exact ih h (wellFormed_step hs hwf)

theorem unshared_step {j j' : LogStreamingController} {op : Op} (h : step j op = some j')
    (hwf : WellFormed j) (hu : Unshared j) : Unshared j' := by
  intro c K K' h1 h2
  rcases step_mem_lt h h1 with a | ⟨a1, a2⟩
  · rcases step_mem_lt h h2 with b | ⟨b1, b2⟩
    · exact hu c K K' a b
    · have := hwf K c a
      omega
  · rcases step_mem_lt h h2 with b | ⟨b1, b2⟩
    · have := hwf K' c b
      omega
    · rw [a2] at b2
      injection b2

theorem tracks_step {j j' : LogStreamingController} {op : Op} (h : step j op = some j')
    {K : String} {q : Nat} (t : Tracks j K q) : Tracks j' K q :=
  ⟨wellFormed_step h t.wf, Nat.lt_of_lt_of_le t.made (step_nextChan h),
    fun K' hm => t.only K' (step_mem h t.made hm)⟩

/-- A call other than `writeLogLine` changes an existing channel only by
handing its oldest line to the receiver. -/
theorem step_chans_of_not_write {j j' : LogStreamingController} {op : Op}
    (h : step j op = some j') {q : Nat} (hq : q < j.nextChan)
    (hop : ∀ K l, op ≠ Op.writeLogLine K l) :
    taken q j op ++ j'.chans q = j.chans q := by
  cases op with
  | addChan K' =>
    simp only [step, Option.map_eq_some', Prod.exists, exists_eq_right] at h
    obtain ⟨q', h⟩ := h
    obtain ⟨hq', -, -, -, hc, -⟩ := addChan_spec h
    have hne : q ≠ q' := by omega
    simp [taken, hc, Function.update_noteq hne]
  | removeChan K' c =>
    simp only [step, Option.some.injEq] at h
    subst h
    simp [taken, removeChan]
  | writeLogLine K' l => exact absurd rfl (hop K' l)
  | clearLogLines K' =>
    simp only [step, Option.some.injEq] at h
    subst h
    simp [taken, clearLogLines]
  | recv c =>
    simp only [step, Option.map_eq_some', Prod.exists, exists_eq_right] at h
    obtain ⟨x, h⟩ := h
    obtain ⟨h1, h2, -⟩ := recv_spec h
    by_cases hc : c = q
    · subst hc
      simp [taken, h, h1]
    · simp [taken, hc, h2 q (Ne.symm hc)]

/-! ## Sequences of calls -/

theorem run_cons_some {j j' : LogStreamingController} {op : Op} {rest : List Op}
    (h : run j (op :: rest) = some j') :
    ∃ j1, step j op = some j1 ∧ run j1 rest = some j' := by
  simp only [run] at h
  cases hs : step j op with
  | none => simp [hs] at h
  | some j1 =>
    rw [hs] at h
    exact ⟨j1, rfl, h⟩

theorem run_append {a b : List Op} {j j1 j2 : LogStreamingController}
    (h1 : run j a = some j1) (h2 : run j1 b = some j2) : run j (a ++ b) = some j2 := by
  induction a generalizing j with
  | nil =>
    simp only [run, Option.some.injEq] at h1
    subst h1; exact h2
  | cons op rest ih =>
    obtain ⟨j', hs, hr⟩ := run_cons_some h1
    simp only [List.cons_append, run, hs]
    exact ih hr

theorem received_append (q : Nat) {a : List Op} (b : List Op) {j j1 : LogStreamingController}
    (h1 : run j a = some j1) : received q j (a ++ b) = received q j a ++ received q j1 b := by
  induction a generalizing j with
  | nil =>
    simp only [run, Option.some.injEq] at h1
    subst h1; simp [received]
  | cons op rest ih =>
    obtain ⟨j', hs, hr⟩ := run_cons_some h1
    rw [List.cons_append]
    simp only [received, hs]
    rw [ih hr, List.append_assoc]

theorem tracks_run {ops : List Op} {j j' : LogStreamingController} (h : run j ops = some j')
    {K : String} {q : Nat} (t : Tracks j K q) : Tracks j' K q := by
  induction ops generalizing j with
  | nil =>
    simp only [run, Option.some.injEq] at h
    subst h; exact t
  | cons op rest ih =>
    obtain ⟨j1, hs, hr⟩ := run_cons_some h
    exact ih hr (tracks_step hs t)

theorem run_afterWrites (K : String) (lines : List String) (j : LogStreamingController) :
    run j (lines.map (Op.writeLogLine K)) = some (afterWrites j K lines) := by
  induction lines generalizing j with
  | nil => rfl
  | cons l rest ih =>
    simp only [List.map_cons, run, step, afterWrites, List.foldl_cons]
    exact ih _

/-- The history buffer after a sequence of calls. -/
theorem bufferOf_run (K : String) {ops : List Op} {j j' : LogStreamingController}
    (h : run j ops = some j') : bufferOf j' K = linesSinceReset K (bufferOf j K) ops := by
  induction ops generalizing j with
  | nil =>
    simp only [run, Option.some.injEq] at h
    subst h; rfl
  | cons op rest ih =>
    obtain ⟨j1, hs, hr⟩ := run_cons_some h
    rw [ih hr]
    cases op with
    | addChan K' =>
      simp only [step, Option.map_eq_some', Prod.exists, exists_eq_right] at hs
      obtain ⟨q', hs⟩ := hs
      rw [bufferOf_congr (addChan_spec hs).2.2.2.1]
      rfl
    | removeChan K' c =>
      simp only [step, Option.some.injEq] at hs
      subst hs; rfl
    | writeLogLine K' l =>
      simp only [step, Option.some.injEq] at hs
      subst hs
      rw [bufferOf_writeLogLine]
      by_cases hK : K' = K
      · subst hK; simp [linesSinceReset]
      · have hK2 : ¬ K = K' := fun e => hK e.symm
        simp [linesSinceReset, hK, hK2]
    | clearLogLines K' =>
      simp only [step, Option.some.injEq] at hs
      subst hs
      rw [bufferOf_clearLogLines]
      by_cases hK : K' = K
      · subst hK; simp [linesSinceReset]
      · have hK2 : ¬ K = K' := fun e => hK e.symm
        simp [linesSinceReset, hK, hK2]
    | recv c =>
      simp only [step, Option.map_eq_some', Prod.exists, exists_eq_right] at hs
      obtain ⟨x, hs⟩ := hs
      rw [bufferOf_congr (recv_spec hs).2.2.1]
      rfl

theorem bufferOf_afterWrites (K : String) (lines : List String) (j : LogStreamingController) :
    bufferOf (afterWrites j K lines) K = bufferOf j K ++ lines := by
  induction lines generalizing j with
  | nil => simp [afterWrites]
  | cons l rest ih =>
    simp only [afterWrites, List.foldl_cons] at ih ⊢
    rw [ih, bufferOf_writeLogLine]
    simp

/-- A channel that exists and is registered nowhere stays unregistered, and
calls only ever take lines out of it. -/
theorem run_unregistered {ops : List Op} {j j' : LogStreamingController}
    (h : run j ops = some j') {q : Nat} (hq : q < j.nextChan)
    (hn : ∀ K, q ∉ chansOf j K) :
    (∀ K, q ∉ chansOf j' K) ∧ received q j ops ++ j'.chans q = j.chans q := by
  induction ops generalizing j with
  | nil =>
    simp only [run, Option.some.injEq] at h
    subst h; exact ⟨hn, by simp [received]⟩
  | cons op rest ih =>
    obtain ⟨j1, hs, hr⟩ := run_cons_some h
    have hq1 : q < j1.nextChan := Nat.lt_of_lt_of_le hq (step_nextChan hs)
    have hn1 : ∀ K, q ∉ chansOf j1 K := fun K hm => hn K (step_mem hs hq hm)
    obtain ⟨ih1, ih2⟩ := ih hr hq1 hn1
    refine ⟨ih1, ?_⟩
    simp only [received, hs, List.append_assoc, ih2]
    by_cases hop : ∀ K l, op ≠ Op.writeLogLine K l
    · exact step_chans_of_not_write hs hq hop
    · push_neg at hop
      obtain ⟨K, l, rfl⟩ := hop
      simp only [step, Option.some.injEq] at hs
      subst hs
      simp [taken, writeLogLine_chans, hn K]

/-- A channel still registered under `K` has been handed every line written
on `K`, in order, behind what it held before. -/
theorem run_registered {ops : List Op} {j j' : LogStreamingController}
    (h : run j ops = some j') {K : String} {q : Nat} (t : Tracks j K q)
    (hm : q ∈ chansOf j' K) :
    q ∈ chansOf j K ∧ received q j ops ++ j'.chans q = j.chans q ++ writesOn K ops := by
  induction ops generalizing j with
  | nil =>
    simp only [run, Option.some.injEq] at h
    subst h; exact ⟨hm, by simp [received, writesOn]⟩
  | cons op rest ih =>
    obtain ⟨j1, hs, hr⟩ := run_cons_some h
    obtain ⟨ih1, ih2⟩ := ih hr (tracks_step hs t)
    have hin : q ∈ chansOf j K := step_mem hs t.made ih1
    refine ⟨hin, ?_⟩
    simp only [received, hs, List.append_assoc, ih2]
    by_cases hop : ∀ K l, op ≠ Op.writeLogLine K l
    · rw [← List.append_assoc, step_chans_of_not_write hs t.made hop]
      cases op with
      | writeLogLine K' l => exact absurd rfl (hop K' l)
      | _ => rfl
    · push_neg at hop
      obtain ⟨K', l, rfl⟩ := hop
      simp only [step, Option.some.injEq] at hs
      subst hs
      by_cases hK : K' = K
      · subst hK
        rw [chansOf_writeLogLine] at ih1
        simp only [if_true, Finset.mem_filter] at ih1
        simp [taken, writeLogLine_chans, ih1.1, ih1.2, writesOn]
      · have hnot : q ∉ chansOf j K' := fun hm' => hK (t.only K' hm')
        simp [taken, writeLogLine_chans, hnot, writesOn, hK]

/-- Whatever happens to a channel, the lines it has been handed are an initial
segment of the lines written on its identity. -/
theorem run_segment {ops : List Op} {j j' : LogStreamingController}
    (h : run j ops = some j') {K : String} {q : Nat} (t : Tracks j K q) :
    ∃ k, received q j ops ++ j'.chans q = j.chans q ++ (writesOn K ops).take k := by
  by_cases hm : q ∈ chansOf j' K
  · exact ⟨(writesOn K ops).length, by rw [List.take_length]; exact (run_registered h t hm).2⟩
  · induction ops generalizing j with
    | nil =>
      simp only [run, Option.some.injEq] at h
      subst h; exact ⟨0, by simp [received]⟩
    | cons op rest ih =>
      obtain ⟨j1, hs, hr⟩ := run_cons_some h
      obtain ⟨k, ih2⟩ := ih hr (tracks_step hs t)
      simp only [received, hs, List.append_assoc, ih2]
      by_cases hop : ∀ K l, op ≠ Op.writeLogLine K l
      · refine ⟨k, ?_⟩
        rw [← List.append_assoc, step_chans_of_not_write hs t.made hop]
        cases op with
        | writeLogLine K' l => exact absurd rfl (hop K' l)
        | _ => rfl
      · push_neg at hop
        obtain ⟨K', l, rfl⟩ := hop
        simp only [step, Option.some.injEq] at hs
        subst hs
        by_cases hK : K' = K
        · subst hK
          by_cases hd : q ∈ chansOf j K' ∧ (j.chans q).length < chanCap
          · refine ⟨k + 1, ?_⟩
            simp [taken, writeLogLine_chans, hd, writesOn]
          · have hgone : ∀ K, q ∉ chansOf (writeLogLine j K' l) K := by
              intro K hmem
              have hmt := (@tracks_step j _ (Op.writeLogLine K' l) rfl _ _ t).only K hmem
              subst hmt
              rw [chansOf_writeLogLine] at hmem
              simp only [if_true, Finset.mem_filter] at hmem
              exact hd hmem
            have hq1 : q < (writeLogLine j K' l).nextChan := by
              rw [writeLogLine_nextChan]; exact t.made
            have hu := (run_unregistered hr hq1 hgone).2
            refine ⟨0, ?_⟩
            rw [← ih2, hu]
            simp [taken, writeLogLine_chans, hd]
        · have hnot : q ∉ chansOf j K' := fun hm' => hK (t.only K' hm')
          refine ⟨k, ?_⟩
          simp [taken, writeLogLine_chans, hnot, writesOn, hK]

theorem bufferOf_zeroValue (K : String) : bufferOf zeroValue K = [] := rfl

theorem bufferOf_storeWithHistory (n : Nat) :
    bufferOf (storeWithHistory n) "k" = List.replicate n "l" := by
  rw [storeWithHistory, bufferOf_afterWrites, bufferOf_zeroValue, List.nil_append]

theorem addChan_zeroValue : addChan zeroValue "k" = some (0, oneSubscriber) := rfl

/-- A call on another identity, or a receive on another channel, leaves the
registry and history of `K` and the contents of `q` alone. -/
theorem step_frame {j j' : LogStreamingController} {op : Op} (h : step j op = some j')
    {K : String} {q : Nat} (t : Tracks j K q)
    (hK : op.pull? ≠ some K) (hr : op ≠ Op.recv q) :
    chansOf j' K = chansOf j K ∧ j'.chans q = j.chans q ∧ bufferOf j' K = bufferOf j K := by
  have hb := @bufferOf_run K [op] j j' (by simp [run, h])
  cases op with
  | addChan K' =>
    have hne : K ≠ K' := fun e => hK (by rw [e]; rfl)
    have hc := step_chans_of_not_write h t.made (by intro _ _ e; cases e)
    simp only [step, Option.map_eq_some', Prod.exists, exists_eq_right] at h
    obtain ⟨q', h⟩ := h
    refine ⟨?_, by simpa [taken] using hc, by simpa [linesSinceReset] using hb⟩
    rw [(addChan_spec h).2.2.2.2.2 K]
    simp [hne]
  | removeChan K' c =>
    have hne : K ≠ K' := fun e => hK (by rw [e]; rfl)
    have hc := step_chans_of_not_write h t.made (by intro _ _ e; cases e)
    simp only [step, Option.some.injEq] at h
    subst h
    refine ⟨?_, by simpa [taken] using hc, by simpa [linesSinceReset] using hb⟩
    rw [chansOf_removeChan]
    simp [hne]
  | writeLogLine K' l =>
    have hne : K ≠ K' := fun e => hK (by rw [e]; rfl)
    have hne2 : ¬ K' = K := fun e => hne e.symm
    simp only [step, Option.some.injEq] at h
    subst h
    have hnot : q ∉ chansOf j K' := fun hm => hne2 (t.only K' hm)
    refine ⟨?_, ?_, by simpa [linesSinceReset, hne2] using hb⟩
    · rw [chansOf_writeLogLine]
      simp [hne]
    · rw [writeLogLine_chans]
      simp [hnot]
  | clearLogLines K' =>
    have hne : K ≠ K' := fun e => hK (by rw [e]; rfl)
    have hne2 : ¬ K' = K := fun e => hne e.symm
    simp only [step, Option.some.injEq] at h
    subst h
    exact ⟨rfl, rfl, by simpa [linesSinceReset, hne2] using hb⟩
  | recv c =>
    have hne : c ≠ q := fun e => hr (by rw [e])
    have hc := step_chans_of_not_write h t.made (by intro _ _ e; cases e)
    simp only [step, Option.map_eq_some', Prod.exists, exists_eq_right] at h
    obtain ⟨x, h⟩ := h
    refine ⟨chansOf_congr (recv_spec h).2.2.2.1 K, by simpa [taken, hne] using hc,
      by simpa [linesSinceReset] using hb⟩

theorem run_frame {ops : List Op} {j j' : LogStreamingController} (h : run j ops = some j')
    {K : String} {q : Nat} (t : Tracks j K q)
    (hops : ∀ op ∈ ops, op.pull? ≠ some K ∧ op ≠ Op.recv q) :
    chansOf j' K = chansOf j K ∧ j'.chans q = j.chans q ∧ bufferOf j' K = bufferOf j K := by
  induction ops generalizing j with
  | nil =>
    simp only [run, Option.some.injEq] at h
    subst h; exact ⟨rfl, rfl, rfl⟩
  | cons op rest ih =>
    obtain ⟨j1, hs, hr⟩ := run_cons_some h
    obtain ⟨a1, a2, a3⟩ := step_frame hs t (hops op (List.mem_cons_self _ _)).1
      (hops op (List.mem_cons_self _ _)).2
    obtain ⟨b1, b2, b3⟩ := ih hr (tracks_step hs t)
      (fun o ho => hops o (List.mem_cons_of_mem _ ho))
    exact ⟨b1.trans a1, b2.trans a2, b3.trans a3⟩

/-- The channel returned by `addChan` on a well-formed store is registered
under the subscribed identity only. -/
theorem tracks_addChan {j j1 : LogStreamingController} {K : String} {q : Nat}
    (hwf : WellFormed j) (h : addChan j K = some (q, j1)) :
    Tracks j1 K q ∧ q ∈ chansOf j1 K ∧ j1.chans q = bufferOf j K := by
  have hs : step j (Op.addChan K) = some j1 := by simp [step, h]
  obtain ⟨hq, -, hn, -, hc, hr⟩ := addChan_spec h
  refine ⟨⟨wellFormed_step hs hwf, by omega, ?_⟩, ?_, ?_⟩
  · intro K' hm
    rw [hr] at hm
    by_cases hK : K' = K
    · exact hK
    · simp only [hK, if_false] at hm
      have := hwf K' q hm
      omega
  · rw [hr]; simp
  · rw [hc]; simp

/-- Writing on `K` with `q` registered: `q` takes lines until it is full and is
evicted by the first line that does not fit. -/
theorem afterWrites_registered (K : String) (q : Nat) (lines : List String)
    (j : LogStreamingController) (hm : q ∈ chansOf j K)
    (hl : (j.chans q).length ≤ chanCap) :
    (afterWrites j K lines).chans q
        = j.chans q ++ lines.take (chanCap - (j.chans q).length) ∧
      (q ∈ chansOf (afterWrites j K lines) K ↔
        (j.chans q).length + lines.length ≤ chanCap) := by
  induction lines generalizing j with
  | nil => simp [afterWrites, hm, hl]
  | cons l rest ih =>
    simp only [afterWrites, List.foldl_cons] at ih ⊢
    by_cases hfit : (j.chans q).length < chanCap
    · have hm1 : q ∈ chansOf (writeLogLine j K l) K := by
        rw [chansOf_writeLogLine]; simp [hm, hfit]
      have hc1 : (writeLogLine j K l).chans q = j.chans q ++ [l] := by
        rw [writeLogLine_chans]; simp [hm, hfit]
      have hl1 : ((writeLogLine j K l).chans q).length ≤ chanCap := by
        rw [hc1]; simp; omega
      obtain ⟨a, b⟩ := ih _ hm1 hl1
      rw [hc1] at a b
      have e : chanCap - (j.chans q).length = (chanCap - (j.chans q ++ [l]).length) + 1 := by
        simp; omega
      refine ⟨?_, ?_⟩
      · rw [a, e, List.take_succ_cons]
        simp
      · rw [b]
        simp only [List.length_append, List.length_cons, List.length_nil]
        omega
    · have hfull : (j.chans q).length = chanCap := by omega
      have hgone : q ∉ chansOf (writeLogLine j K l) K := by
        rw [chansOf_writeLogLine]; simp [hfit]
      have hc1 : (writeLogLine j K l).chans q = j.chans q := by
        rw [writeLogLine_chans]; simp [hfit]
      have key : ∀ (ls : List String) (s : LogStreamingController), q ∉ chansOf s K →
          (List.foldl (fun s l => writeLogLine s K l) s ls).chans q = s.chans q ∧
          q ∉ chansOf (List.foldl (fun s l => writeLogLine s K l) s ls) K := by
        intro ls
        induction ls with
        | nil => intro s hs; exact ⟨rfl, hs⟩
        | cons a t iht =>
          intro s hs
          simp only [List.foldl_cons]
          have hs1 : q ∉ chansOf (writeLogLine s K a) K := by
            rw [chansOf_writeLogLine]; simp [hs]
          obtain ⟨x, y⟩ := iht _ hs1
          refine ⟨?_, y⟩
          rw [x, writeLogLine_chans]; simp [hs]
      obtain ⟨x, y⟩ := key rest _ hgone
      rw [x, hc1, hfull]
      simp only [Nat.sub_self, List.take_zero, List.append_nil, List.length_cons, true_and]
      constructor
      · intro hin; exact absurd hin y
      · intro; omega

theorem afterWrites_unregistered (K : String) (q : Nat) (lines : List String)
    (j : LogStreamingController) (hm : q ∉ chansOf j K) :
    (afterWrites j K lines).chans q = j.chans q ∧ q ∉ chansOf (afterWrites j K lines) K := by
  induction lines generalizing j with
  | nil => exact ⟨rfl, hm⟩
  | cons a t ih =>
    simp only [afterWrites, List.foldl_cons] at ih ⊢
    have hs1 : q ∉ chansOf (writeLogLine j K a) K := by
      rw [chansOf_writeLogLine]; simp [hm]
    obtain ⟨x, y⟩ := ih _ hs1
    refine ⟨?_, y⟩
    rw [x, writeLogLine_chans]; simp [hm]

theorem removeChan_of_not_mem (j : LogStreamingController) (K : String) (q : Nat)
    (h : q ∉ chansOf j K) : removeChan j K q = j := by
  unfold removeChan
  rw [deleteChan_of_not_mem j K q h]

/-- When the history fits the channel, `addChan` returns the new channel,
loaded with the history and registered under the identity. -/
theorem addChan_replays (j : LogStreamingController) (K : String)
    (h : (bufferOf j K).length ≤ chanCap) :
    ∃ j1, addChan j K = some (j.nextChan, j1) ∧ j1.chans j.nextChan = bufferOf j K ∧
      j.nextChan ∈ chansOf j1 K := by
  have e := addChan_eq j K
  simp only [h, if_true] at e
  refine ⟨_, e, ?_⟩
  obtain ⟨-, -, -, -, hc, hr⟩ := addChan_spec e
  exact ⟨by rw [hc]; simp, by rw [hr]; simp⟩

theorem addChan_eq_none_iff (j : LogStreamingController) (K : String) :
    addChan j K = none ↔ chanCap < (bufferOf j K).length := by
  rw [addChan_eq]
  by_cases h : (bufferOf j K).length ≤ chanCap
  · simp only [h, if_true]
    constructor
    · intro e; cases e
    · intro e; omega
  · simp only [h, if_false, true_iff]
    omega

/-! ## Properties of the store -/

/-- C1 (replay on subscribe), evaluated where the code departs from it: after
1001 calls `writeLogLine("k", "l")` on the zero-value store the history of
`"k"` holds 1001 lines, and `addChan("k")` does not return: the replay loop
blocks on the send of line 1001 into the channel of capacity 1000 that it has
just made and that nobody else can read, while holding `chanLock`. -/
theorem addChan_blocks_on_long_history :
    bufferOf (storeWithHistory 1001) "k" = List.replicate 1001 "l" ∧
    addChan (storeWithHistory 1001) "k" = none := by
  refine ⟨bufferOf_storeWithHistory 1001, ?_⟩
  rw [addChan_eq_none_iff, bufferOf_storeWithHistory, List.length_replicate]
  decide

/-- C2 as stated fails: with a history of exactly 1000 lines, `addChan("k")`
returns a channel that the replay has filled, so the following
`writeLogLine("k", "x")` does not enqueue `"x"`: the channel still holds the
1000 replayed lines only and has been dropped from the registry. -/
theorem gap_free_handoff_fails_on_full_replay :
    ∃ q j1, addChan (storeWithHistory 1000) "k" = some (q, j1) ∧
      (writeLogLine j1 "k" "x").chans q = List.replicate 1000 "l" ∧
      (writeLogLine j1 "k" "x").chans q ≠ bufferOf (storeWithHistory 1000) "k" ++ ["x"] ∧
      q ∉ chansOf (writeLogLine j1 "k" "x") "k" := by
  have hb := bufferOf_storeWithHistory 1000
  have hlen : (bufferOf (storeWithHistory 1000) "k").length ≤ chanCap := by
    rw [hb, List.length_replicate]; decide
  obtain ⟨j1, h1, h2, h3⟩ := addChan_replays (storeWithHistory 1000) "k" hlen
  have hfull : ¬ ((j1.chans (storeWithHistory 1000).nextChan).length < chanCap) := by
    rw [h2, hb, List.length_replicate]; decide
  have hc : (writeLogLine j1 "k" "x").chans (storeWithHistory 1000).nextChan
      = List.replicate 1000 "l" := by
    rw [writeLogLine_chans]
    simp only [hfull, and_false, if_false]
    rw [h2, hb]
  refine ⟨_, j1, h1, hc, ?_, ?_⟩
  · rw [hc, hb]
    intro e
    have := congrArg List.length e
    rw [List.length_append, List.length_replicate, List.length_singleton] at this
    omega
  · rw [chansOf_writeLogLine]
    simp [hfull]

/-- C2 (gap-free handoff), amended to a history of fewer than 1000 lines: on a
well-formed store, if `addChan(K)` returns `q`, then any calls on other
identities and any receives on other channels happen, then `writeLogLine(K, x)`
is called, `q` holds exactly the history of `K` at subscription followed by
`x`, and `q` is still registered under `K`. -/
theorem gap_free_handoff (j : LogStreamingController) (hwf : WellFormed j) (K x : String)
    (q : Nat) (j1 : LogStreamingController) (hadd : addChan j K = some (q, j1))
    (hlt : (bufferOf j K).length < chanCap)
    (others : List Op) (hothers : ∀ op ∈ others, op.pull? ≠ some K ∧ op ≠ Op.recv q)
    (j2 : LogStreamingController) (hrun : run j1 others = some j2) :
    (writeLogLine j2 K x).chans q = bufferOf j K ++ [x] ∧
    q ∈ chansOf (writeLogLine j2 K x) K := by
  obtain ⟨t, hm, hc⟩ := tracks_addChan hwf hadd
  obtain ⟨f1, f2, -⟩ := run_frame hrun t hothers
  have hm2 : q ∈ chansOf j2 K := by rw [f1]; exact hm
  have hc2 : j2.chans q = bufferOf j K := by rw [f2, hc]
  have hfit : (j2.chans q).length < chanCap := by rw [hc2]; exact hlt
  constructor
  · rw [writeLogLine_chans, if_pos ⟨hm2, hfit⟩, hc2]
  · rw [chansOf_writeLogLine]
    simp [hm2, hfit]

/-- Instance of C2: subscribe to `"k"` on the zero-value store, write on another
identity, then write `"x"` on `"k"`. -/
theorem gap_free_handoff_witness :
    (writeLogLine (writeLogLine oneSubscriber "other" "y") "k" "x").chans 0
        = bufferOf zeroValue "k" ++ ["x"] ∧
      0 ∈ chansOf (writeLogLine (writeLogLine oneSubscriber "other" "y") "k" "x") "k" :=
  gap_free_handoff zeroValue wellFormed_zeroValue "k" "x" 0 oneSubscriber addChan_zeroValue
    (by decide) [Op.writeLogLine "other" "y"] (by decide)
    (writeLogLine oneSubscriber "other" "y") rfl

/-- C3 (backpressure and eviction): for an identity `K` with empty history,
`addChan(K)` returns a channel `q`; the 1001 calls `writeLogLine(K, l_i)` all
complete; afterwards `q` holds exactly the first 1000 lines in order and is no
longer registered under `K`; and whatever is written on `K` later, the contents
of `q` stay the same. -/
theorem backpressure_eviction (j : LogStreamingController) (K : String)
    (hK : bufferOf j K = []) (lines : List String) (hlen : lines.length = 1001) :
    ∃ q j1, addChan j K = some (q, j1) ∧
      run j1 (lines.map (Op.writeLogLine K)) = some (afterWrites j1 K lines) ∧
      (afterWrites j1 K lines).chans q = lines.take 1000 ∧
      q ∉ chansOf (afterWrites j1 K lines) K ∧
      ∀ later : List String,
        (afterWrites (afterWrites j1 K lines) K later).chans q = lines.take 1000 := by
  have h0 : (bufferOf j K).length ≤ chanCap := by rw [hK]; decide
  obtain ⟨j1, h1, h2, h3⟩ := addChan_replays j K h0
  rw [hK] at h2
  have hl : (j1.chans j.nextChan).length ≤ chanCap := by rw [h2]; decide
  obtain ⟨a, b⟩ := afterWrites_registered K j.nextChan lines j1 h3 hl
  have hc : (afterWrites j1 K lines).chans j.nextChan = lines.take 1000 := by
    rw [a, h2]; rfl
  have hgone : j.nextChan ∉ chansOf (afterWrites j1 K lines) K := by
    rw [b, h2, hlen]; decide
  refine ⟨_, j1, h1, run_afterWrites K lines j1, hc, hgone, ?_⟩
  intro later
  rw [(afterWrites_unregistered K j.nextChan later _ hgone).1, hc]

/-- Instance of C3: the zero-value store and 1001 lines. -/
theorem backpressure_eviction_witness :
    bufferOf zeroValue "k" = [] ∧ (List.replicate 1001 "l").length = 1001 ∧
    ∃ q j1, addChan zeroValue "k" = some (q, j1) ∧
      run j1 ((List.replicate 1001 "l").map (Op.writeLogLine "k"))
        = some (afterWrites j1 "k" (List.replicate 1001 "l")) ∧
      (afterWrites j1 "k" (List.replicate 1001 "l")).chans q
        = (List.replicate 1001 "l").take 1000 ∧
      q ∉ chansOf (afterWrites j1 "k" (List.replicate 1001 "l")) "k" ∧
      ∀ later : List String,
        (afterWrites (afterWrites j1 "k" (List.replicate 1001 "l")) "k" later).chans q
          = (List.replicate 1001 "l").take 1000 :=
  ⟨rfl, List.length_replicate _ _,
    backpressure_eviction zeroValue "k" rfl (List.replicate 1001 "l")
      (List.length_replicate _ _)⟩

/-- C4 (reset semantics and frame): `clearLogLines(K)` leaves `K` with no
history and every other history as it was, so an immediately following
`addChan(K)` returns an empty channel; the registry map, the contents of every
channel and the channel allocator are untouched. -/
theorem clearLogLines_reset (j : LogStreamingController) (K : String) :
    (∀ K', bufferOf (clearLogLines j K) K' = if K' = K then [] else bufferOf j K') ∧
    (∃ q j1, addChan (clearLogLines j K) K = some (q, j1) ∧ j1.chans q = []) ∧
    (clearLogLines j K).wsChans = j.wsChans ∧
    (clearLogLines j K).chans = j.chans ∧
    (clearLogLines j K).nextChan = j.nextChan := by
  have hb : bufferOf (clearLogLines j K) K = [] := by
    rw [bufferOf_clearLogLines]; simp
  refine ⟨bufferOf_clearLogLines j K, ?_, rfl, rfl, rfl⟩
  have h0 : (bufferOf (clearLogLines j K) K).length ≤ chanCap := by rw [hb]; decide
  obtain ⟨j1, h1, h2, -⟩ := addChan_replays (clearLogLines j K) K h0
  exact ⟨_, j1, h1, by rw [h2, hb]⟩

/-- C5 (idempotent unsubscribe): `removeChan(K, q)` always completes; calling
it twice gives the same store as calling it once; when `q` is not registered
under `K` (which includes a missing registry entry and a nil registry map) the
store is unchanged; and in every case exactly `q` is removed from the registry
of `K`, every other registry, the history map, the channel contents and the
allocator staying as they were. -/
theorem removeChan_idempotent (j : LogStreamingController) (K : String) (q : Nat) :
    step j (Op.removeChan K q) = some (removeChan j K q) ∧
    removeChan (removeChan j K q) K q = removeChan j K q ∧
    (q ∈ chansOf j K ∨ removeChan j K q = j) ∧
    (∀ K', chansOf (removeChan j K q) K' =
      if K' = K then (chansOf j K).erase q else chansOf j K') ∧
    (removeChan j K q).logBuffers = j.logBuffers ∧
    (removeChan j K q).chans = j.chans ∧
    (removeChan j K q).nextChan = j.nextChan := by
  have hgone : q ∉ chansOf (removeChan j K q) K := by
    rw [chansOf_removeChan]; simp
  refine ⟨rfl, removeChan_of_not_mem _ K q hgone, ?_, chansOf_removeChan j K q,
    rfl, rfl, rfl⟩
  by_cases h : q ∈ chansOf j K
  · exact Or.inl h
  · exact Or.inr (removeChan_of_not_mem j K q h)

/-- C7 (dispatcher step): one iteration of `Listen` is the optional
`clearLogLines`, then `writeLogLine`, then the optional `clearLogLines`, on the
identity of the event. Afterwards the history of that identity is empty when
`ClearBuffAfter` is set, exactly the line when only `ClearBuffBefore` is set
(a new `addChan` then replays just that line), and the old history followed by
the line otherwise; and every channel registered under the identity that had
room has the line behind its old contents and is still registered. -/
theorem listen_iteration (j : LogStreamingController) (msg : TerraformOutputLine)
    (rest : List TerraformOutputLine) :
    Listen j (msg :: rest) = Listen (Listen j [msg]) rest ∧
    Listen j [msg] =
      (if msg.ClearBuffAfter then
        clearLogLines (writeLogLine
          (if msg.ClearBuffBefore then clearLogLines j msg.PullInfo else j)
          msg.PullInfo msg.Line) msg.PullInfo
      else
        writeLogLine (if msg.ClearBuffBefore then clearLogLines j msg.PullInfo else j)
          msg.PullInfo msg.Line) ∧
    bufferOf (Listen j [msg]) msg.PullInfo =
      (if msg.ClearBuffAfter then []
       else if msg.ClearBuffBefore then [msg.Line]
       else bufferOf j msg.PullInfo ++ [msg.Line]) ∧
    (msg.ClearBuffBefore = true → msg.ClearBuffAfter = false →
      ∃ q j', addChan (Listen j [msg]) msg.PullInfo = some (q, j') ∧
        j'.chans q = [msg.Line]) ∧
    (∀ q, q ∈ chansOf j msg.PullInfo → (j.chans q).length < chanCap →
      (Listen j [msg]).chans q = j.chans q ++ [msg.Line] ∧
      q ∈ chansOf (Listen j [msg]) msg.PullInfo) := by
  obtain ⟨K, line, before, after⟩ := msg
  have hhist : bufferOf (Listen j [⟨K, line, before, after⟩]) K =
      (if after then [] else if before then [line] else bufferOf j K ++ [line]) := by
    cases before <;> cases after <;>
      simp [Listen, bufferOf_clearLogLines, bufferOf_writeLogLine]
  refine ⟨rfl, ?_, hhist, ?_, ?_⟩
  · cases before <;> cases after <;> rfl
  · intro hb ha
    simp only at hb ha
    subst hb
    subst ha
    simp only [Bool.false_eq_true, if_false, if_true] at hhist
    have h0 : (bufferOf (Listen j [⟨K, line, true, false⟩]) K).length ≤ chanCap := by
      rw [hhist]; simp [chanCap]
    obtain ⟨j1, h1, h2, -⟩ := addChan_replays _ K h0
    exact ⟨_, j1, h1, by rw [h2, hhist]⟩
  · intro q hq hfit
    have hw : ∀ s : LogStreamingController, s.chans = j.chans → s.wsChans = j.wsChans →
        (writeLogLine s K line).chans q = j.chans q ++ [line] ∧
        q ∈ chansOf (writeLogLine s K line) K := by
      intro s hc hws
      have hq2 : q ∈ chansOf s K := by rw [chansOf_congr hws]; exact hq
      have hfit2 : (s.chans q).length < chanCap := by rw [hc]; exact hfit
      constructor
      · rw [writeLogLine_chans, if_pos ⟨hq2, hfit2⟩, hc]
      · rw [chansOf_writeLogLine]; simp [hq2, hfit2]
    cases before <;> cases after
    · exact hw j rfl rfl
    · exact hw j rfl rfl
    · exact hw (clearLogLines j K) rfl rfl
    · exact hw (clearLogLines j K) rfl rfl

/-- The example of C7: prior history `["x", "y"]`, then the event with line
`"stale"` and `ClearBuffBefore` set leaves the history `["stale"]`. -/
theorem listen_stale_example :
    bufferOf (afterWrites zeroValue "k" ["x", "y"]) "k" = ["x", "y"] ∧
    bufferOf (Listen (afterWrites zeroValue "k" ["x", "y"]) [⟨"k", "stale", true, false⟩]) "k"
      = ["stale"] := by
  constructor
  · rw [bufferOf_afterWrites]; rfl
  · simp [Listen, bufferOf_clearLogLines, bufferOf_writeLogLine]

theorem sinceLastReset_of_not_mem (K : String) (ops : List Op)
    (h : Op.clearLogLines K ∉ ops) : sinceLastReset K ops = ops := by
  cases ops with
  | nil => rfl
  | cons op rest =>
    rw [List.mem_cons, not_or] at h
    have h1 : ¬ op = Op.clearLogLines K := fun e => h.1 e.symm
    simp [sinceLastReset, h.2, h1]

theorem linesSinceReset_of_not_mem (K : String) (ops : List Op) (acc : List String)
    (h : Op.clearLogLines K ∉ ops) : linesSinceReset K acc ops = acc ++ writesOn K ops := by
  induction ops generalizing acc with
  | nil => simp [linesSinceReset, writesOn]
  | cons op rest ih =>
    rw [List.mem_cons, not_or] at h
    cases op with
    | writeLogLine K' l =>
      by_cases hK : K' = K
      · simp [linesSinceReset, writesOn, hK, ih _ h.2]
      · simp [linesSinceReset, writesOn, hK, ih _ h.2]
    | clearLogLines K' =>
      have hK : ¬ K' = K := fun e => h.1 (by rw [e])
      simp [linesSinceReset, writesOn, hK, ih _ h.2]
    | addChan K' => simp [linesSinceReset, writesOn, ih _ h.2]
    | removeChan K' c => simp [linesSinceReset, writesOn, ih _ h.2]
    | recv c => simp [linesSinceReset, writesOn, ih _ h.2]

/-- The running account of the history agrees with the reading "the lines
written after the last reset". -/
theorem linesSinceReset_eq (K : String) (ops : List Op) (acc : List String) :
    linesSinceReset K acc ops =
      if Op.clearLogLines K ∈ ops then writesOn K (sinceLastReset K ops)
      else acc ++ writesOn K ops := by
  induction ops generalizing acc with
  | nil => simp [linesSinceReset, writesOn]
  | cons op rest ih =>
    by_cases hr : Op.clearLogLines K ∈ rest
    · have hin : Op.clearLogLines K ∈ op :: rest := List.mem_cons_of_mem _ hr
      have e : ∀ acc', linesSinceReset K acc' rest = writesOn K (sinceLastReset K rest) := by
        intro acc'; rw [ih]; simp [hr]
      simp only [hin, if_true, sinceLastReset, hr]
      cases op <;> simp only [linesSinceReset, e]
    · by_cases ho : op = Op.clearLogLines K
      · subst ho
        simp [linesSinceReset, sinceLastReset, hr, linesSinceReset_of_not_mem K rest _ hr]
      · have hnot : Op.clearLogLines K ∉ op :: rest := by
          rw [List.mem_cons, not_or]
          exact ⟨fun e => ho e.symm, hr⟩
        rw [linesSinceReset_of_not_mem K _ _ hnot]
        simp [hnot]

/-- C8 (history invariant): after any sequence of completed calls on the
zero-value store, the history of every identity `K` is exactly the lines passed
to `writeLogLine(K, ·)` after the last `clearLogLines(K)` (all of them when
there was none), in call order; and a further call that is neither
`writeLogLine(K, ·)` nor `clearLogLines(K)` leaves it unchanged. -/
theorem history_invariant (ops : List Op) (j : LogStreamingController)
    (h : run zeroValue ops = some j) (K : String) :
    bufferOf j K = writesOn K (sinceLastReset K ops) ∧
    (∀ op j', step j op = some j' → (∀ l, op ≠ Op.writeLogLine K l) →
      op ≠ Op.clearLogLines K → bufferOf j' K = bufferOf j K) := by
  constructor
  · rw [bufferOf_run K h, bufferOf_zeroValue, linesSinceReset_eq]
    by_cases hc : Op.clearLogLines K ∈ ops
    · simp [hc]
    · simp [hc, sinceLastReset_of_not_mem K ops hc]
  · intro op j' hs hw hc
    have hb := @bufferOf_run K [op] j j' (by simp [run, hs])
    rw [hb]
    cases op with
    | writeLogLine K' l =>
      have hK : ¬ K' = K := fun e => hw l (by rw [e])
      simp [linesSinceReset, hK]
    | clearLogLines K' =>
      have hK : ¬ K' = K := fun e => hc (by rw [e])
      simp [linesSinceReset, hK]
    | addChan K' => rfl
    | removeChan K' c => rfl
    | recv c => rfl

/-- Instance of C8: write, subscribe, write, reset, write, write on `"k"`. -/
theorem history_invariant_witness :
    bufferOf (writeLogLine (writeLogLine (clearLogLines (writeLogLine oneSubscriber "k" "b")
        "k") "k" "c") "k" "d") "k"
      = writesOn "k" (sinceLastReset "k"
          [Op.addChan "k", Op.writeLogLine "k" "b", Op.clearLogLines "k",
            Op.writeLogLine "k" "c", Op.writeLogLine "k" "d"]) :=
  (history_invariant
    [Op.addChan "k", Op.writeLogLine "k" "b", Op.clearLogLines "k",
      Op.writeLogLine "k" "c", Op.writeLogLine "k" "d"] _ rfl "k").1

theorem unshared_zeroValue : Unshared zeroValue := by
  intro c K K' h
  simp [chansOf, zeroValue] at h

theorem unshared_run {ops : List Op} {j j' : LogStreamingController}
    (h : run j ops = some j') (hwf : WellFormed j) (hu : Unshared j) : Unshared j' := by
  induction ops generalizing j with
  | nil =>
    simp only [run, Option.some.injEq] at h
    subst h; exact hu
  | cons op rest ih =>
    obtain ⟨j1, hs, hr⟩ := run_cons_some h
    exact ih hr (wellFormed_step hs hwf) (unshared_step hs hwf hu)

/-- In a store reached from the zero value, a registered channel exists and is
registered under one identity only. -/
theorem tracks_of_reachable {ops : List Op} {j : LogStreamingController}
    (h : run zeroValue ops = some j) {K : String} {q : Nat} (hm : q ∈ chansOf j K) :
    Tracks j K q :=
  ⟨wellFormed_run h wellFormed_zeroValue,
    wellFormed_run h wellFormed_zeroValue K q hm,
    fun K' hm' => unshared_run h wellFormed_zeroValue unshared_zeroValue q K' K hm' hm⟩

/-- C9 (no write after removal): in every store `j1` reached from the zero
value, `writeLogLine(K', line)` leaves every channel that is not registered
under `K'` at the time of the call as it was. And a channel `q` that is
registered under `K` in `j1` and is later found removed from the registry of
`K` (by `removeChan` or by eviction) is, after any further calls, registered
under no identity; its contents together with what was received from it since
are exactly its contents at removal; and no single store call changes its
contents or registers it again. -/
theorem no_write_after_removal (ops1 : List Op) (j1 : LogStreamingController)
    (h1 : run zeroValue ops1 = some j1) :
    (∀ K' line c, c ∉ chansOf j1 K' → (writeLogLine j1 K' line).chans c = j1.chans c) ∧
    (∀ (K : String) (q : Nat) (ops2 ops3 : List Op) (j2 j3 : LogStreamingController),
      q ∈ chansOf j1 K → run j1 ops2 = some j2 → q ∉ chansOf j2 K →
      run j2 ops3 = some j3 →
        (∀ K', q ∉ chansOf j3 K') ∧
        received q j2 ops3 ++ j3.chans q = j2.chans q ∧
        (∀ op j4, step j3 op = some j4 → (∀ c, op ≠ Op.recv c) →
          j4.chans q = j3.chans q ∧ ∀ K', q ∉ chansOf j4 K')) := by
  constructor
  · intro K' line c hc
    rw [writeLogLine_chans]
    simp [hc]
  · intro K q ops2 ops3 j2 j3 hreg h2 hrem h3
    have t2 : Tracks j2 K q := tracks_run h2 (tracks_of_reachable h1 hreg)
    have hn2 : ∀ K', q ∉ chansOf j2 K' := by
      intro K' hm
      have := t2.only K' hm
      subst this
      exact hrem hm
    obtain ⟨hn3, hc3⟩ := run_unregistered h3 t2.made hn2
    have t3 : Tracks j3 K q := tracks_run h3 t2
    refine ⟨hn3, hc3, ?_⟩
    intro op j4 hs hop
    have hr : run j3 [op] = some j4 := by simp [run, hs]
    obtain ⟨a, b⟩ := run_unregistered hr t3.made hn3
    refine ⟨?_, a⟩
    have ht : received q j3 [op] = [] := by
      cases op with
      | recv c => exact absurd rfl (hop c)
      | _ => simp [received, hs, taken]
    rw [ht, List.nil_append] at b
    exact b

/-- Instance of C9: on the zero-value store subscribe to `"k"`. A write on
another identity leaves channel 0 alone; and after an unsubscribe, a write on
`"k"` neither registers channel 0 again nor adds to it. -/
theorem no_write_after_removal_witness :
    (writeLogLine oneSubscriber "other" "a").chans 0 = oneSubscriber.chans 0 ∧
    (∀ K', 0 ∉ chansOf (writeLogLine (removeChan oneSubscriber "k" 0) "k" "a") K') ∧
    received 0 (removeChan oneSubscriber "k" 0) [Op.writeLogLine "k" "a"]
        ++ (writeLogLine (removeChan oneSubscriber "k" 0) "k" "a").chans 0
      = (removeChan oneSubscriber "k" 0).chans 0 :=
  have h := no_write_after_removal [Op.addChan "k"] oneSubscriber rfl
  have hreg : 0 ∈ chansOf oneSubscriber "k" := by simp [oneSubscriber, chansOf]
  have hother : 0 ∉ chansOf oneSubscriber "other" := by
    simp [oneSubscriber, chansOf, Function.update]
  have hrem : 0 ∉ chansOf (removeChan oneSubscriber "k" 0) "k" := by
    rw [chansOf_removeChan]; simp
  have h2 := h.2 "k" 0 [Op.removeChan "k" 0] [Op.writeLogLine "k" "a"]
    (removeChan oneSubscriber "k" 0)
    (writeLogLine (removeChan oneSubscriber "k" 0) "k" "a") hreg rfl hrem rfl
  ⟨h.1 "other" "a" 0 hother, h2.1, h2.2.1⟩

/-- The lines enqueued on a channel since a store in which it is registered
under `K` only are an initial segment of the lines written on `K` since, and
all of them while the channel is still registered. -/
theorem enqueuedSince_segment {ops : List Op} {j j' : LogStreamingController}
    (h : run j ops = some j') {K : String} {q : Nat} (t : Tracks j K q) :
    (∃ k, enqueuedSince q j ops j' = (writesOn K ops).take k) ∧
    (q ∈ chansOf j' K → enqueuedSince q j ops j' = writesOn K ops) := by
  unfold enqueuedSince
  constructor
  · obtain ⟨k, hk⟩ := run_segment h t
    exact ⟨k, by rw [hk, List.drop_left]⟩
  · intro hm
    rw [(run_registered h t hm).2, List.drop_left]

theorem writesOn_append (K : String) (a b : List Op) :
    writesOn K (a ++ b) = writesOn K a ++ writesOn K b := by
  induction a with
  | nil => rfl
  | cons op rest ih =>
    cases op with
    | writeLogLine K' l =>
      by_cases hK : K' = K <;> simp [writesOn, hK, ih]
    | _ => simp [writesOn, ih]

theorem writesOn_of_no_write (K : String) (ops : List Op)
    (h : ∀ l, Op.writeLogLine K l ∉ ops) : writesOn K ops = [] := by
  induction ops with
  | nil => rfl
  | cons op rest ih =>
    have hr : ∀ l, Op.writeLogLine K l ∉ rest :=
      fun l hm => h l (List.mem_cons_of_mem _ hm)
    cases op with
    | writeLogLine K' l =>
      have hK : ¬ K' = K := fun e => h l (by rw [e]; exact List.mem_cons_self _ _)
      simp [writesOn, hK, ih hr]
    | _ => simp [writesOn, ih hr]

theorem afterWrites_nextChan (K : String) (lines : List String) (j : LogStreamingController) :
    (afterWrites j K lines).nextChan = j.nextChan := by
  induction lines generalizing j with
  | nil => rfl
  | cons l rest ih =>
    simp only [afterWrites, List.foldl_cons] at ih ⊢
    rw [ih, writeLogLine_nextChan]

theorem wellFormed_storeWithHistory (n : Nat) : WellFormed (storeWithHistory n) :=
  wellFormed_run (run_afterWrites "k" (List.replicate n "l") zeroValue) wellFormed_zeroValue

theorem addChan_oneSubscriber : addChan oneSubscriber "k" = some (1, twoSubscribers) := by
  rw [addChan_eq]
  have hb : bufferOf oneSubscriber "k" = [] := rfl
  have hc : chansOf oneSubscriber "k" = insert 0 ∅ := by
    simp [chansOf, oneSubscriber]
  rw [hb, hc]
  rfl

theorem recv_of_cons {j : LogStreamingController} {c : Nat} {x : String} {rest : List String}
    (h : j.chans c = x :: rest) : ∃ j', recv j c = some (x, j') := by
  unfold recv
  rw [h]
  exact ⟨_, rfl⟩

/-- Two consecutive subscriptions on a history that fills a channel exactly,
one receive on the first channel, then one write: the first channel is handed
the line, the second is evicted without it. -/
theorem fan_out_gap (j : LogStreamingController) (hwf : WellFormed j) (K x : String)
    (hfull : (bufferOf j K).length = chanCap) :
    ∃ j1 j2 j3, addChan j K = some (j.nextChan, j1) ∧
      addChan j1 K = some (j.nextChan + 1, j2) ∧
      run j2 [Op.recv j.nextChan, Op.writeLogLine K x] = some j3 ∧
      enqueuedSince j.nextChan j1 [Op.addChan K, Op.recv j.nextChan, Op.writeLogLine K x] j3
        = [x] ∧
      enqueuedSince (j.nextChan + 1) j2 [Op.recv j.nextChan, Op.writeLogLine K x] j3 = [] := by
  obtain ⟨j1, a1, a2, a3⟩ := addChan_replays j K (by omega)
  obtain ⟨-, -, n1, lb1, -, -⟩ := addChan_spec a1
  have hb1 : bufferOf j1 K = bufferOf j K := bufferOf_congr lb1 K
  obtain ⟨j2, b1, b2, b3⟩ := addChan_replays j1 K (by rw [hb1]; omega)
  rw [n1] at b1 b2 b3
  rw [hb1] at b2
  obtain ⟨-, -, -, -, c2, r2⟩ := addChan_spec b1
  have hne : j.nextChan ≠ j.nextChan + 1 := by omega
  have h20 : j2.chans j.nextChan = bufferOf j K := by
    rw [c2, Function.update_noteq hne, a2]
  have hm20 : j.nextChan ∈ chansOf j2 K := by
    rw [r2, if_pos rfl]
    exact Finset.mem_insert_of_mem a3
  -- the history is not empty, so the receive on the first channel completes
  obtain ⟨l, tail, hlt⟩ : ∃ l tail, bufferOf j K = l :: tail := by
    cases hh : bufferOf j K with
    | nil => rw [hh] at hfull; exact absurd hfull (by decide)
    | cons l tail => exact ⟨l, tail, rfl⟩
  have htail : tail.length + 1 = chanCap := by
    rw [← hfull, hlt]; rfl
  obtain ⟨j2', hrecv⟩ := recv_of_cons (h20.trans hlt)
  obtain ⟨d1, d2, -, d4, -⟩ := recv_spec hrecv
  have d1' : j2'.chans j.nextChan = tail := by
    rw [h20, hlt] at d1
    exact (List.cons.inj d1).2.symm
  have hstep : step j2 (Op.recv j.nextChan) = some j2' := by
    simp only [step, hrecv, Option.map_some']
  have hrun : run j2 [Op.recv j.nextChan, Op.writeLogLine K x]
      = some (writeLogLine j2' K x) := by
    simp only [run]
    rw [hstep]
    rfl
  refine ⟨j1, j2, _, a1, b1, hrun, ?_, ?_⟩
  · have t1 := (tracks_addChan hwf a1).1
    have hstep1 : step j1 (Op.addChan K) = some j2 := by
      simp only [step, b1, Option.map_some']
    have hrun1 : run j1 [Op.addChan K, Op.recv j.nextChan, Op.writeLogLine K x]
        = some (writeLogLine j2' K x) := by
      simp only [run, hstep1]
      exact hrun
    have hstill : j.nextChan ∈ chansOf (writeLogLine j2' K x) K := by
      rw [chansOf_writeLogLine, if_pos rfl, Finset.mem_filter, chansOf_congr d4, d1']
      exact ⟨hm20, by omega⟩
    rw [(enqueuedSince_segment hrun1 t1).2 hstill]
    simp [writesOn]
  · unfold enqueuedSince
    have hrec : received (j.nextChan + 1) j2 [Op.recv j.nextChan, Op.writeLogLine K x] = [] := by
      simp only [received]
      rw [hstep]
      simp [taken, hne, step]
    have hsame : j2'.chans (j.nextChan + 1) = bufferOf j K := by
      rw [d2 _ (Ne.symm hne), b2]
    have hkeep : (writeLogLine j2' K x).chans (j.nextChan + 1) = bufferOf j K := by
      rw [writeLogLine_chans, hsame, if_neg]
      rintro ⟨-, h⟩
      omega
    rw [hrec, hkeep, b2, List.nil_append]
    exact List.drop_length _

/-- C6 as stated fails: two channels are obtained by consecutive `addChan("k")`
calls on a store whose history for `"k"` holds 1000 lines, so both come back
full. The first session receives one line, then `"x"` is written: the first
channel is handed `"x"`, the second is evicted without it. -/
theorem fan_out_differs_after_eviction :
    ∃ j1 j2 j3, addChan (storeWithHistory 1000) "k" = some (0, j1) ∧
      addChan j1 "k" = some (1, j2) ∧
      run j2 [Op.recv 0, Op.writeLogLine "k" "x"] = some j3 ∧
      enqueuedSince 0 j1 [Op.addChan "k", Op.recv 0, Op.writeLogLine "k" "x"] j3 = ["x"] ∧
      enqueuedSince 1 j2 [Op.recv 0, Op.writeLogLine "k" "x"] j3 = [] := by
  have hn : (storeWithHistory 1000).nextChan = 0 := afterWrites_nextChan _ _ _
  have hfull : (bufferOf (storeWithHistory 1000) "k").length = chanCap := by
    rw [bufferOf_storeWithHistory, List.length_replicate]
    rfl
  have h := fan_out_gap (storeWithHistory 1000) (wellFormed_storeWithHistory 1000) "k" "x" hfull
  rw [hn] at h
  exact h

/-- C6 (fan-out consistency), amended for eviction: on a well-formed store let
`q1` and `q2` be returned by two `addChan(K)` calls with no `writeLogLine(K, ·)`
between them, and let any calls and receives follow. Then the lines enqueued on
each channel after its subscription are an initial segment of the lines written
on `K` since, and all of them for a channel that is still registered under `K`;
so the two sequences are equal, in the same order, whenever both channels are
still registered. -/
theorem fan_out_consistency (j : LogStreamingController) (hwf : WellFormed j) (K : String)
    (q1 : Nat) (j1 : LogStreamingController) (h1 : addChan j K = some (q1, j1))
    (mid : List Op) (hmid : ∀ l, Op.writeLogLine K l ∉ mid)
    (j1' : LogStreamingController) (hr : run j1 mid = some j1')
    (q2 : Nat) (j2 : LogStreamingController) (h2 : addChan j1' K = some (q2, j2))
    (sched : List Op) (j3 : LogStreamingController) (hs : run j2 sched = some j3) :
    (∃ k, enqueuedSince q1 j1 (mid ++ Op.addChan K :: sched) j3 = (writesOn K sched).take k) ∧
    (∃ k, enqueuedSince q2 j2 sched j3 = (writesOn K sched).take k) ∧
    (q1 ∈ chansOf j3 K →
      enqueuedSince q1 j1 (mid ++ Op.addChan K :: sched) j3 = writesOn K sched) ∧
    (q2 ∈ chansOf j3 K → enqueuedSince q2 j2 sched j3 = writesOn K sched) ∧
    (q1 ∈ chansOf j3 K → q2 ∈ chansOf j3 K →
      enqueuedSince q1 j1 (mid ++ Op.addChan K :: sched) j3
        = enqueuedSince q2 j2 sched j3) := by
  have t1 := (tracks_addChan hwf h1).1
  have t2 := (tracks_addChan (tracks_run hr t1).wf h2).1
  have hstep : step j1' (Op.addChan K) = some j2 := by simp [step, h2]
  have hrun1 : run j1 (mid ++ Op.addChan K :: sched) = some j3 :=
    run_append hr (by simp only [run, hstep]; exact hs)
  have hw : writesOn K (mid ++ Op.addChan K :: sched) = writesOn K sched := by
    rw [writesOn_append, writesOn_of_no_write K mid hmid]
    rfl
  obtain ⟨a1, a2⟩ := enqueuedSince_segment hrun1 t1
  obtain ⟨b1, b2⟩ := enqueuedSince_segment hs t2
  rw [hw] at a1 a2
  exact ⟨a1, b1, a2, b2, fun m1 m2 => (a2 m1).trans (b2 m2).symm⟩

/-- Instance of C6: two subscribers of `"k"` on the zero-value store, then one
line written; both channels are still registered and both were handed it. -/
theorem fan_out_consistency_witness :
    0 ∈ chansOf (writeLogLine twoSubscribers "k" "a") "k" ∧
    1 ∈ chansOf (writeLogLine twoSubscribers "k" "a") "k" ∧
    enqueuedSince 0 oneSubscriber ([] ++ Op.addChan "k" :: [Op.writeLogLine "k" "a"])
        (writeLogLine twoSubscribers "k" "a") = ["a"] ∧
    enqueuedSince 1 twoSubscribers [Op.writeLogLine "k" "a"]
        (writeLogLine twoSubscribers "k" "a") = ["a"] := by
  have h := fan_out_consistency zeroValue wellFormed_zeroValue "k" 0 oneSubscriber
    addChan_zeroValue [] (by simp) oneSubscriber rfl 1 twoSubscribers addChan_oneSubscriber
    [Op.writeLogLine "k" "a"] (writeLogLine twoSubscribers "k" "a") rfl
  have hc : chansOf twoSubscribers "k" = insert 1 (insert 0 ∅) := by
    simp [chansOf, twoSubscribers]
  have e0 : twoSubscribers.chans 0 = [] := rfl
  have e1 : twoSubscribers.chans 1 = [] := rfl
  have m0 : 0 ∈ chansOf (writeLogLine twoSubscribers "k" "a") "k" := by
    rw [chansOf_writeLogLine, hc, if_pos rfl, Finset.mem_filter, e0]
    exact ⟨by simp, by decide⟩
  have m1 : 1 ∈ chansOf (writeLogLine twoSubscribers "k" "a") "k" := by
    rw [chansOf_writeLogLine, hc, if_pos rfl, Finset.mem_filter, e1]
    exact ⟨by simp, by decide⟩
  exact ⟨m0, m1, h.2.2.1 m0, h.2.2.2.1 m1⟩

/-! ## The identity key -/

theorem digitChar_props (d : Nat) (h : d < 10) :
    digitVal (digitChar d) = d ∧ digitChar d ≠ '/' ∧ digitChar d ≠ '-' := by
  interval_cases d <;> decide

theorem decDigits_acc (fuel u : Nat) (acc : List Char) :
    decDigits fuel u acc = decDigits fuel u [] ++ acc := by
  induction fuel generalizing u acc with
  | zero => simp [decDigits]
  | succ f ih =>
    unfold decDigits
    by_cases h : 10 ≤ u
    · simp only [h, if_true]
      rw [ih (u / 10) (digitChar (u % 10) :: acc), ih (u / 10) [digitChar (u % 10)]]
      simp
    · simp [h]

theorem decDigits_digits (fuel u : Nat) :
    ∀ c ∈ decDigits fuel u [], ∃ d, d < 10 ∧ c = digitChar d := by
  induction fuel generalizing u with
  | zero =>
    intro c hc
    simp only [decDigits, List.mem_singleton] at hc
    exact ⟨u % 10, Nat.mod_lt _ (by decide), hc⟩
  | succ f ih =>
    intro c hc
    unfold decDigits at hc
    by_cases h : 10 ≤ u
    · simp only [h, if_true] at hc
      rw [decDigits_acc] at hc
      rcases List.mem_append.mp hc with h1 | h1
      · exact ih _ c h1
      · simp only [List.mem_singleton] at h1
        exact ⟨u % 10, Nat.mod_lt _ (by decide), h1⟩
    · simp only [h, if_false, List.mem_singleton] at hc
      exact ⟨u, by omega, hc⟩

theorem readDigits_snoc (l : List Char) (c : Char) :
    readDigits (l ++ [c]) = 10 * readDigits l + digitVal c := by
  simp [readDigits, List.foldl_append]

/-- Reading back the digits written for `u` gives `u`. -/
theorem readDigits_decDigits (fuel u : Nat) (h : u ≤ fuel) :
    readDigits (decDigits fuel u []) = u := by
  induction fuel generalizing u with
  | zero =>
    have hu : u = 0 := by omega
    subst hu
    decide
  | succ f ih =>
    unfold decDigits
    by_cases h10 : 10 ≤ u
    · simp only [h10, if_true]
      rw [decDigits_acc, readDigits_snoc, ih (u / 10) (by omega),
        (digitChar_props (u % 10) (Nat.mod_lt _ (by decide))).1]
      omega
    · simp only [h10, if_false]
      have := (digitChar_props u (by omega)).1
      simp [readDigits, this]

theorem slash_not_mem_formatInt (i : Int) : '/' ∉ formatInt i := by
  have hd : ∀ n : Nat, '/' ∉ decDigits n n [] := by
    intro n hm
    obtain ⟨d, hd, e⟩ := decDigits_digits n n _ hm
    exact (digitChar_props d hd).2.1 e.symm
  unfold formatInt
  by_cases h : i < 0
  · simp only [h, if_true, List.mem_cons, not_or]
    exact ⟨by decide, hd _⟩
  · simp only [h, if_false]
    exact hd _

theorem formatInt_injective (i k : Int) (h : formatInt i = formatInt k) : i = k := by
  have hminus : ∀ n : Nat, '-' ∉ decDigits n n [] := by
    intro n hm
    obtain ⟨d, hd, e⟩ := decDigits_digits n n _ hm
    exact (digitChar_props d hd).2.2 e.symm
  have hnat : ∀ a b : Nat, decDigits a a [] = decDigits b b [] → a = b := by
    intro a b e
    have := congrArg readDigits e
    rwa [readDigits_decDigits a a (Nat.le_refl _),
      readDigits_decDigits b b (Nat.le_refl _)] at this
  unfold formatInt at h
  by_cases hi : i < 0 <;> by_cases hk : k < 0
  · simp only [hi, hk, if_true, List.cons.injEq, true_and] at h
    have := hnat _ _ h
    omega
  · simp only [hi, hk, if_true, if_false] at h
    exact absurd (h ▸ List.mem_cons_self _ _) (hminus _)
  · simp only [hi, hk, if_true, if_false] at h
    exact absurd (h ▸ List.mem_cons_self _ _) (hminus _)
  · simp only [hi, hk, if_false] at h
    have := hnat _ _ h
    omega

/-- The verb `%d` writes a natural number in decimal, and a negative number
as `'-'` followed by the decimal of its absolute value. -/
theorem formatInt_decimal (n : Nat) :
    readDigits (formatInt n) = n ∧ formatInt (-(n + 1 : Nat)) = '-' :: formatInt (n + 1 : Nat) := by
  have hn : ¬ ((n : Int) < 0) := by omega
  have hn1 : ¬ (((n + 1 : Nat) : Int) < 0) := by omega
  have hneg : (-((n + 1 : Nat) : Int)) < 0 := by omega
  constructor
  · simp only [formatInt, hn, if_false, Int.natAbs_ofNat]
    exact readDigits_decDigits _ _ (Nat.le_refl _)
  · simp only [formatInt, hneg, hn1, if_true, if_false, Int.natAbs_neg, Int.natAbs_ofNat]

/-- Two lists cut at their first `'/'` agree on both sides of the cut. -/
theorem split_at_slash (a b x y : List Char) (ha : '/' ∉ a) (hb : '/' ∉ b)
    (h : a ++ '/' :: x = b ++ '/' :: y) : a = b ∧ x = y := by
  induction a generalizing b with
  | nil =>
    cases b with
    | nil => simpa using h
    | cons c t =>
      simp only [List.nil_append, List.cons_append, List.cons.injEq] at h
      exact absurd (h.1 ▸ List.mem_cons_self _ _) hb
  | cons c t ih =>
    cases b with
    | nil =>
      simp only [List.nil_append, List.cons_append, List.cons.injEq] at h
      exact absurd (h.1 ▸ List.mem_cons_self _ _) ha
    | cons c' t' =>
      simp only [List.cons_append, List.cons.injEq] at h
      obtain ⟨e1, e2⟩ := ih t' (fun m => ha (List.mem_cons_of_mem _ m))
        (fun m => hb (List.mem_cons_of_mem _ m)) h.2
      exact ⟨by rw [h.1, e1], e2⟩

theorem PullInfo.String_data (p : PullInfo) :
    p.String.data =
      p.Org.data ++ '/' :: (p.Repo.data ++ '/' :: (formatInt p.Pull ++ '/' :: p.ProjectName.data)) := by
  simp [PullInfo.String, String.data_append]

/-- C10 (the identity key partitions the state): `PullInfo.String` renders
`Org`, `Repo`, the decimal `Pull` and `ProjectName` separated by `'/'`, and for
two values whose `Org` and `Repo` contain no `'/'`, equal keys force all four
fields to be equal, so the two values are the same identity. -/
theorem pullInfo_key_injective (p₁ p₂ : PullInfo)
    (ho₁ : '/' ∉ p₁.Org.data) (hr₁ : '/' ∉ p₁.Repo.data)
    (ho₂ : '/' ∉ p₂.Org.data) (hr₂ : '/' ∉ p₂.Repo.data)
    (h : p₁.String = p₂.String) :
    p₁.String = p₁.Org ++ "/" ++ p₁.Repo ++ "/" ++ String.mk (formatInt p₁.Pull) ++ "/"
      ++ p₁.ProjectName ∧
    p₁.Org = p₂.Org ∧ p₁.Repo = p₂.Repo ∧ p₁.Pull = p₂.Pull ∧
    p₁.ProjectName = p₂.ProjectName ∧ p₁ = p₂ := by
  have hd := congrArg String.data h
  rw [PullInfo.String_data, PullInfo.String_data] at hd
  obtain ⟨e1, hd⟩ := split_at_slash _ _ _ _ ho₁ ho₂ hd
  obtain ⟨e2, hd⟩ := split_at_slash _ _ _ _ hr₁ hr₂ hd
  obtain ⟨e3, e4⟩ := split_at_slash _ _ _ _ (slash_not_mem_formatInt _)
    (slash_not_mem_formatInt _) hd
  have f1 : p₁.Org = p₂.Org := String.ext e1
  have f2 : p₁.Repo = p₂.Repo := String.ext e2
  have f3 : p₁.Pull = p₂.Pull := formatInt_injective _ _ e3
  have f4 : p₁.ProjectName = p₂.ProjectName := String.ext e4
  refine ⟨rfl, f1, f2, f3, f4, ?_⟩
  cases p₁; cases p₂
  simp only at f1 f2 f3 f4
  simp [f1, f2, f3, f4]

/-- Instance of C10: the key `"acme/infra/42/prod"`. -/
theorem pullInfo_key_injective_witness :
    PullInfo.String ⟨"acme", "infra", 42, "prod"⟩ = "acme/infra/42/prod" ∧
    (⟨"acme", "infra", 42, "prod"⟩ : PullInfo) = ⟨"acme", "infra", 42, "prod"⟩ :=
  ⟨by decide,
    (pullInfo_key_injective ⟨"acme", "infra", 42, "prod"⟩ ⟨"acme", "infra", 42, "prod"⟩
      (by decide) (by decide) (by decide) (by decide) rfl).2.2.2.2.2⟩

end LogStreaming
